import Mathlib

/-!
Verification of the file-correspondence and metric engine of
`comparator.py` (merge-tool quality analysis).

All Python real arithmetic is modelled exactly over `ℚ`; Python `dict`s
(which preserve insertion order) are modelled as association lists; strings
are Lean `String`s with `List Char` data.  `difflib.SequenceMatcher` is
modelled (for inputs with no junk, which is the case here: the junk
parameter is `None` and autojunk only applies to sequences of length
at least 200) by its documented contract: repeatedly take the longest
matching block, preferring blocks that start earliest in `a`, then
earliest in `b`, and recurse on both sides.
-/

namespace MergeComp

/-! ## Basic string helpers -/

/-- Lowercase the characters of a list (Python `str.lower`, ASCII part). -/
def lowerChars (s : List Char) : List Char := s.map Char.toLower

/-- Substring containment test (`re.search` of a literal pattern). -/
def strContains (s pat : List Char) : Bool :=
  (List.range (s.length + 1)).any (fun i => (s.drop i).take pat.length == pat)

/-- Suffix test (`$`-anchored literal pattern). -/
def strEndsWith (s pat : List Char) : Bool :=
  decide (pat.length ≤ s.length) && ((s.drop (s.length - pat.length)) == pat)

/-- Number of leading decimal digits (`\d*` greedy). -/
def countLeadingDigits : List Char → Nat
  | [] => 0
  | c :: rest => if c.isDigit then countLeadingDigits rest + 1 else 0

/-- Python regex `\w` word character (ASCII fragment). -/
def isWordChar (c : Char) : Bool := c.isAlphanum || c == '_'

/-- Stem of `os.path.splitext` for a plain file name (no directory
separators): split at the last dot, unless every character before that
dot is itself a dot (leading dots belong to the stem). -/
def stemOf (s : List Char) : List Char :=
  match ((List.range s.length).filter (fun i => s.getD i ' ' == '.')).getLast? with
  | none => s
  | some d => if (List.range d).all (fun i => s.getD i ' ' == '.') then s else s.take d

/-! ## difflib.SequenceMatcher model -/

/-- Length of the common run of `a` (from index `i`) and `b` (from index
`j`), staying below `bhi` on the `b` side; the fuel argument is the room
left below `ahi` on the `a` side. -/
def forwardRunF [DecidableEq α] (a b : List α) (bhi : Nat) : Nat → Nat → Nat → Nat
  | 0, _, _ => 0
  | n + 1, i, j =>
    if j < bhi ∧ a.get? i ≠ none ∧ a.get? i = b.get? j then
      forwardRunF a b bhi n (i + 1) (j + 1) + 1
    else 0

/-- Length of the matching run starting at `(i, j)` inside the window
`[alo, ahi) × [blo, bhi)` (the `alo`/`blo` bounds are enforced by callers). -/
def forwardRun [DecidableEq α] (a b : List α) (ahi bhi i j : Nat) : Nat :=
  forwardRunF a b bhi (ahi - i) i j

/-- All candidate block starts of a window, in lexicographic order. -/
def windowPairs (alo ahi blo bhi : Nat) : List (Nat × Nat) :=
  (List.range' alo (ahi - alo)).flatMap
    (fun i => (List.range' blo (bhi - blo)).map (fun j => (i, j)))

/-- Scan candidate starts keeping the first block of each new strictly
larger size — `SequenceMatcher.find_longest_match`'s selection rule. -/
def bestScan [DecidableEq α] (a b : List α) (ahi bhi : Nat) :
    List (Nat × Nat) → Nat × Nat × Nat → Nat × Nat × Nat
  | [], best => best
  | (i, j) :: rest, best =>
    let k := forwardRun a b ahi bhi i j
    bestScan a b ahi bhi rest (if best.2.2 < k then (i, j, k) else best)

/-- `find_longest_match` on the window `[alo, ahi) × [blo, bhi)`:
the longest matching block, earliest in `a` then earliest in `b`,
`(alo, blo, 0)` when there is no match at all. -/
def findLongestMatch [DecidableEq α] (a b : List α) (alo ahi blo bhi : Nat) :
    Nat × Nat × Nat :=
  bestScan a b ahi bhi (windowPairs alo ahi blo bhi) (alo, blo, 0)

/-- Total size of the matching blocks of `get_matching_blocks`, computed
with explicit fuel (the window perimeter strictly decreases, so the fuel
in `matchedTotal` below is always sufficient). -/
def matchedTotalF [DecidableEq α] (a b : List α) :
    Nat → Nat → Nat → Nat → Nat → Nat
  | 0, _, _, _, _ => 0
  | fuel + 1, alo, ahi, blo, bhi =>
    let r := findLongestMatch a b alo ahi blo bhi
    if r.2.2 = 0 then 0
    else
      matchedTotalF a b fuel alo r.1 blo r.2.1 + r.2.2 +
        matchedTotalF a b fuel (r.1 + r.2.2) ahi (r.2.1 + r.2.2) bhi

/-- Total number of matched elements between `a` and `b`. -/
def matchedTotal [DecidableEq α] (a b : List α) : Nat :=
  matchedTotalF a b (a.length + b.length) 0 a.length 0 b.length

/-- `SequenceMatcher.ratio()`: `2*M / (len a + len b)`, and `1` when both
sequences are empty. -/
def smScore [DecidableEq α] (a b : List α) : ℚ :=
  if a.length + b.length = 0 then 1
  else (2 * matchedTotal a b : ℚ) / (a.length + b.length)

/-! ### SequenceMatcher lemmas -/

section SMLemmas

variable {α : Type} [DecidableEq α]

theorem forwardRunF_le_fuel (a b : List α) (bhi : Nat) :
    ∀ n i j, forwardRunF a b bhi n i j ≤ n := by
  intro n
  induction n with
  | zero => intro i j; simp [forwardRunF]
  | succ n ih =>
    intro i j
    rw [forwardRunF]
    split
    · exact Nat.succ_le_succ (ih _ _)
    · exact Nat.zero_le _

theorem forwardRunF_le_b (a b : List α) (bhi : Nat) :
    ∀ n i j, forwardRunF a b bhi n i j ≤ bhi - j := by
  intro n
  induction n with
  | zero => intro i j; simp [forwardRunF]
  | succ n ih =>
    intro i j
    rw [forwardRunF]
    split
    · rename_i h
      have := ih (i + 1) (j + 1)
      omega
    · exact Nat.zero_le _

theorem forwardRunF_match (a b : List α) (bhi : Nat) :
    ∀ n i j m, m < forwardRunF a b bhi n i j →
      a.get? (i + m) = b.get? (j + m) ∧ a.get? (i + m) ≠ none := by
  intro n
  induction n with
  | zero => intro i j m hm; simp [forwardRunF] at hm
  | succ n ih =>
    intro i j m hm
    rw [forwardRunF] at hm
    split at hm
    · rename_i h
      match m with
      | 0 =>
        simp only [Nat.add_zero]
        exact ⟨h.2.2, h.2.1⟩
      | m' + 1 =>
        have := ih (i + 1) (j + 1) m' (by omega)
        have e1 : i + (m' + 1) = i + 1 + m' := by omega
        have e2 : j + (m' + 1) = j + 1 + m' := by omega
        rw [e1, e2]
        exact this
    · omega

theorem forwardRun_le_a (a b : List α) (ahi bhi i j : Nat) :
    forwardRun a b ahi bhi i j ≤ ahi - i :=
  forwardRunF_le_fuel a b bhi (ahi - i) i j

theorem forwardRun_le_b (a b : List α) (ahi bhi i j : Nat) :
    forwardRun a b ahi bhi i j ≤ bhi - j :=
  forwardRunF_le_b a b bhi (ahi - i) i j

theorem forwardRun_match (a b : List α) (ahi bhi i j m : Nat)
    (hm : m < forwardRun a b ahi bhi i j) :
    a.get? (i + m) = b.get? (j + m) ∧ a.get? (i + m) ≠ none :=
  forwardRunF_match a b bhi (ahi - i) i j m hm

/-- Identical lists match fully from any aligned start inside the window. -/
theorem forwardRunF_self (a : List α) :
    ∀ n i, i + n ≤ a.length → forwardRunF a a a.length n i i = n := by
  intro n
  induction n with
  | zero => intro i _; simp [forwardRunF]
  | succ n ih =>
    intro i hi
    rw [forwardRunF]
    have hlt : i < a.length := by omega
    have hsome : a.get? i ≠ none := by
      rw [List.get?_eq_get hlt]
      simp
    rw [if_pos ⟨hlt, hsome, rfl⟩, ih (i + 1) (by omega)]

theorem mem_windowPairs {alo ahi blo bhi i j : Nat} :
    (i, j) ∈ windowPairs alo ahi blo bhi ↔
      (alo ≤ i ∧ i < alo + (ahi - alo)) ∧ (blo ≤ j ∧ j < blo + (bhi - blo)) := by
  simp only [windowPairs, List.mem_flatMap, List.mem_map, List.mem_range'_1, Prod.mk.injEq]
  constructor
  · rintro ⟨i', hi', j', hj', rfl, rfl⟩
    exact ⟨hi', hj'⟩
  · rintro ⟨hi, hj⟩
    exact ⟨i, hi, j, hj, rfl, rfl⟩

theorem bestScan_eq_init_or_mem (a b : List α) (ahi bhi : Nat) :
    ∀ (l : List (Nat × Nat)) (init : Nat × Nat × Nat),
      bestScan a b ahi bhi l init = init ∨
      ∃ p ∈ l, bestScan a b ahi bhi l init =
        (p.1, p.2, forwardRun a b ahi bhi p.1 p.2) := by
  intro l
  induction l with
  | nil => intro init; left; rfl
  | cons p rest ih =>
    intro init
    obtain ⟨i, j⟩ := p
    rw [bestScan]
    rcases ih (if init.2.2 < forwardRun a b ahi bhi i j
        then (i, j, forwardRun a b ahi bhi i j) else init) with h | ⟨q, hq, h⟩
    · rw [h]
      split
      · right
        exact ⟨(i, j), List.mem_cons_self _ _, rfl⟩
      · left; rfl
    · right
      exact ⟨q, List.mem_cons_of_mem _ hq, h⟩

theorem bestScan_ge_init (a b : List α) (ahi bhi : Nat) :
    ∀ (l : List (Nat × Nat)) (init : Nat × Nat × Nat),
      init.2.2 ≤ (bestScan a b ahi bhi l init).2.2 := by
  intro l
  induction l with
  | nil => intro init; exact Nat.le_refl _
  | cons p rest ih =>
    intro init
    obtain ⟨i, j⟩ := p
    rw [bestScan]
    refine Nat.le_trans ?_ (ih _)
    split
    · rename_i h; exact Nat.le_of_lt h
    · exact Nat.le_refl _

theorem bestScan_ge (a b : List α) (ahi bhi : Nat) :
    ∀ (l : List (Nat × Nat)) (init : Nat × Nat × Nat) (p : Nat × Nat), p ∈ l →
      forwardRun a b ahi bhi p.1 p.2 ≤ (bestScan a b ahi bhi l init).2.2 := by
  intro l
  induction l with
  | nil => intro init p hp; simp at hp
  | cons q rest ih =>
    intro init p hp
    obtain ⟨i, j⟩ := q
    rw [bestScan]
    rcases List.mem_cons.mp hp with rfl | hp'
    · show forwardRun a b ahi bhi i j ≤ _
      refine Nat.le_trans ?_ (bestScan_ge_init a b ahi bhi rest _)
      split
      · exact Nat.le_refl _
      · rename_i h; omega
    · exact ih _ p hp'

theorem flm_shape (a b : List α) (alo ahi blo bhi : Nat)
    (h : (findLongestMatch a b alo ahi blo bhi).2.2 ≠ 0) :
    alo ≤ (findLongestMatch a b alo ahi blo bhi).1 ∧
      (findLongestMatch a b alo ahi blo bhi).1 +
        (findLongestMatch a b alo ahi blo bhi).2.2 ≤ ahi ∧
      blo ≤ (findLongestMatch a b alo ahi blo bhi).2.1 ∧
      (findLongestMatch a b alo ahi blo bhi).2.1 +
        (findLongestMatch a b alo ahi blo bhi).2.2 ≤ bhi ∧
      (findLongestMatch a b alo ahi blo bhi).2.2 =
        forwardRun a b ahi bhi (findLongestMatch a b alo ahi blo bhi).1
          (findLongestMatch a b alo ahi blo bhi).2.1 := by
  rcases bestScan_eq_init_or_mem a b ahi bhi (windowPairs alo ahi blo bhi)
      (alo, blo, 0) with he | ⟨p, hp, he⟩
  · exact absurd (congrArg (fun t => t.2.2) he) h
  · obtain ⟨i, j⟩ := p
    have hm := mem_windowPairs.mp hp
    have h1 : forwardRun a b ahi bhi i j ≤ ahi - i := forwardRun_le_a a b ahi bhi i j
    have h2 : forwardRun a b ahi bhi i j ≤ bhi - j := forwardRun_le_b a b ahi bhi i j
    have hr : findLongestMatch a b alo ahi blo bhi =
        (i, j, forwardRun a b ahi bhi i j) := he
    rw [hr]
    refine ⟨hm.1.1, ?_, hm.2.1, ?_, rfl⟩
    · show i + forwardRun a b ahi bhi i j ≤ ahi
      omega
    · show j + forwardRun a b ahi bhi i j ≤ bhi
      omega

theorem flm_max (a b : List α) (alo ahi blo bhi i j : Nat)
    (hi1 : alo ≤ i) (hi2 : i < ahi) (hj1 : blo ≤ j) (hj2 : j < bhi) :
    forwardRun a b ahi bhi i j ≤ (findLongestMatch a b alo ahi blo bhi).2.2 := by
  refine bestScan_ge a b ahi bhi _ _ (i, j) ?_
  exact mem_windowPairs.mpr ⟨⟨hi1, by omega⟩, ⟨hj1, by omega⟩⟩

theorem matchedTotalF_le (a b : List α) :
    ∀ fuel alo ahi blo bhi,
      matchedTotalF a b fuel alo ahi blo bhi ≤ min (ahi - alo) (bhi - blo) := by
  intro fuel
  induction fuel with
  | zero => intro alo ahi blo bhi; simp [matchedTotalF]
  | succ fuel ih =>
    intro alo ahi blo bhi
    rw [matchedTotalF]
    by_cases hk : (findLongestMatch a b alo ahi blo bhi).2.2 = 0
    · simp [hk]
    · simp only [hk, if_neg, if_false]
      have hb := flm_shape a b alo ahi blo bhi hk
      have h1 := ih alo (findLongestMatch a b alo ahi blo bhi).1 blo
        (findLongestMatch a b alo ahi blo bhi).2.1
      have h2 := ih ((findLongestMatch a b alo ahi blo bhi).1 +
        (findLongestMatch a b alo ahi blo bhi).2.2) ahi
        ((findLongestMatch a b alo ahi blo bhi).2.1 +
          (findLongestMatch a b alo ahi blo bhi).2.2) bhi
      omega

theorem matchedTotal_le (a b : List α) :
    matchedTotal a b ≤ min a.length b.length := by
  have := matchedTotalF_le a b (a.length + b.length) 0 a.length 0 b.length
  simpa [matchedTotal] using this

theorem matchedTotalF_empty (a b : List α) (fuel alo ahi blo bhi : Nat)
    (h : ahi ≤ alo ∨ bhi ≤ blo) :
    matchedTotalF a b fuel alo ahi blo bhi = 0 := by
  have := matchedTotalF_le a b fuel alo ahi blo bhi
  omega

theorem matchedTotal_self (a : List α) : matchedTotal a a = a.length := by
  rcases Nat.eq_zero_or_pos a.length with h0 | hpos
  · have := matchedTotal_le a a
    omega
  · rw [matchedTotal]
    rcases Nat.exists_eq_succ_of_ne_zero (n := a.length + a.length) (by omega) with ⟨f, hf⟩
    rw [hf, matchedTotalF]
    have hfull : forwardRun a a a.length a.length 0 0 = a.length := by
      rw [forwardRun]
      simpa using forwardRunF_self a a.length 0 (by omega)
    have hmax := flm_max a a 0 a.length 0 a.length 0 0
      (Nat.le_refl 0) hpos (Nat.le_refl 0) hpos
    rw [hfull] at hmax
    have hk : (findLongestMatch a a 0 a.length 0 a.length).2.2 ≠ 0 := by omega
    have hb := flm_shape a a 0 a.length 0 a.length hk
    have hkeq : (findLongestMatch a a 0 a.length 0 a.length).2.2 = a.length := by
      have := forwardRun_le_a a a a.length a.length
        (findLongestMatch a a 0 a.length 0 a.length).1
        (findLongestMatch a a 0 a.length 0 a.length).2.1
      omega
    have hi0 : (findLongestMatch a a 0 a.length 0 a.length).1 = 0 := by omega
    have hj0 : (findLongestMatch a a 0 a.length 0 a.length).2.1 = 0 := by omega
    rw [if_neg hk, hi0, hj0, hkeq]
    rw [matchedTotalF_empty a a f 0 0 0 0 (Or.inl (Nat.le_refl 0)),
      matchedTotalF_empty a a f (0 + a.length) a.length (0 + a.length) a.length
        (Or.inl (by omega))]
    omega

theorem matchedTotalF_full (a b : List α) :
    ∀ fuel alo ahi blo bhi,
      matchedTotalF a b fuel alo ahi blo bhi = ahi - alo →
      ahi - alo = bhi - blo →
      ∀ m, m < ahi - alo → a.get? (alo + m) = b.get? (blo + m) := by
  intro fuel
  induction fuel with
  | zero =>
    intro alo ahi blo bhi h _ m hm
    simp [matchedTotalF] at h
    omega
  | succ fuel ih =>
    intro alo ahi blo bhi h hlen m hm
    rw [matchedTotalF] at h
    by_cases hk : (findLongestMatch a b alo ahi blo bhi).2.2 = 0
    · rw [if_pos hk] at h; omega
    · rw [if_neg hk] at h
      have hb := flm_shape a b alo ahi blo bhi hk
      obtain ⟨hb1, hb2, hb3, hb4, hb5⟩ := hb
      set i := (findLongestMatch a b alo ahi blo bhi).1 with hidef
      set j := (findLongestMatch a b alo ahi blo bhi).2.1 with hjdef
      set k := (findLongestMatch a b alo ahi blo bhi).2.2 with hkdef
      have hL := matchedTotalF_le a b fuel alo i blo j
      have hR := matchedTotalF_le a b fuel (i + k) ahi (j + k) bhi
      have hLeq : matchedTotalF a b fuel alo i blo j = i - alo := by omega
      have hLlen : i - alo = j - blo := by omega
      have hReq : matchedTotalF a b fuel (i + k) ahi (j + k) bhi = ahi - (i + k) := by
        omega
      have hRlen : ahi - (i + k) = bhi - (j + k) := by omega
      rcases Nat.lt_or_ge m (i - alo) with hcase | hcase
      · exact ih alo i blo j hLeq hLlen m hcase
      · rcases Nat.lt_or_ge m (i - alo + k) with hcase2 | hcase2
        · have hm' : m - (i - alo) < forwardRun a b ahi bhi i j := by omega
          have := (forwardRun_match a b ahi bhi i j (m - (i - alo)) hm').1
          have e1 : alo + m = i + (m - (i - alo)) := by omega
          have e2 : blo + m = j + (m - (i - alo)) := by omega
          rw [e1, e2]
          exact this
        · have := ih (i + k) ahi (j + k) bhi hReq hRlen (m - (i - alo + k)) (by omega)
          have e1 : alo + m = i + k + (m - (i - alo + k)) := by omega
          have e2 : blo + m = j + k + (m - (i - alo + k)) := by omega
          rw [e1, e2]
          exact this

theorem matchedTotal_full_eq (a b : List α)
    (h : matchedTotal a b = a.length) (hlen : a.length = b.length) : a = b := by
  apply List.ext_get?
  intro n
  by_cases hn : n < a.length
  · have := matchedTotalF_full a b (a.length + b.length) 0 a.length 0 b.length
      (by simpa [matchedTotal] using h) (by omega) n (by omega)
    simpa using this
  · rw [List.get?_eq_none.mpr (by omega), List.get?_eq_none.mpr (by omega)]

theorem smScore_nonneg (a b : List α) : 0 ≤ smScore a b := by
  rw [smScore]
  split
  · norm_num
  · positivity

theorem smScore_le_one (a b : List α) : smScore a b ≤ 1 := by
  rw [smScore]
  split
  · norm_num
  · rename_i h
    have hle := matchedTotal_le a b
    have hpos : (0 : ℚ) < (a.length : ℚ) + b.length := by
      have hp : 0 < a.length + b.length := by omega
      exact_mod_cast hp
    rw [div_le_one hpos]
    have : 2 * matchedTotal a b ≤ a.length + b.length := by omega
    exact_mod_cast this

theorem smScore_eq_one_iff (a b : List α) : smScore a b = 1 ↔ a = b := by
  rw [smScore]
  split
  · rename_i h
    have ha : a = [] := List.length_eq_zero.mp (by omega)
    have hb : b = [] := List.length_eq_zero.mp (by omega)
    simp [ha, hb]
  · rename_i h
    have hne : ((a.length : ℚ) + b.length) ≠ 0 := by
      have hp : 0 < a.length + b.length := by omega
      have : (0 : ℚ) < (a.length : ℚ) + b.length := by exact_mod_cast hp
      exact ne_of_gt this
    constructor
    · intro heq
      rw [div_eq_one_iff_eq hne] at heq
      have hnat : 2 * matchedTotal a b = a.length + b.length := by exact_mod_cast heq
      have hle := matchedTotal_le a b
      exact matchedTotal_full_eq a b (by omega) (by omega)
    · intro heq
      subst heq
      rw [matchedTotal_self]
      have hl : (a.length : ℚ) ≠ 0 := by
        have : a.length ≠ 0 := by omega
        exact_mod_cast this
      field_simp
      ring

end SMLemmas

/-! ## FileNameAnalyzer -/

/-- Lowercased character data of a string. -/
def lowerData (s : String) : List Char := lowerChars s.data

/-- Prefix test for a literal pattern fragment, case-insensitive. -/
def matchLit (tag : List Char) (s : List Char) : Bool :=
  lowerChars (s.take tag.length) == tag

/-- Leading-anchored literal test on a whole (lowercased) name. -/
def strStartsWithL (s pat : List Char) : Bool := s.take pat.length == pat

/-- `FileNameAnalyzer.is_conflict_file`: `re.search` of each conflict
pattern, case-insensitive; regexes are expanded literally. -/
def is_conflict_file (name : String) : Bool :=
  let s := lowerData name
  strContains s ".base.".data || strContains s ".local.".data ||
  strContains s ".remote.".data || strContains s ".backup.".data ||
  strContains s "_backup_".data || strContains s "_base_".data ||
  strContains s "_local_".data || strContains s "_remote_".data ||
  strContains s "<<<<<<< ".data || strContains s "=======".data ||
  strContains s ">>>>>>> ".data ||
  strEndsWith s ".orig".data || strEndsWith s ".rej".data ||
  strEndsWith s ".mine".data ||
  -- `\.r\d+$`
  (let ds := countLeadingDigits s.reverse
   decide (0 < ds) && strEndsWith (s.take (s.length - ds)) ".r".data) ||
  strEndsWith s ".working".data ||
  -- `\.merge-\w+$`
  (let ws := (s.reverse.takeWhile isWordChar).length
   decide (0 < ws) && strEndsWith (s.take (s.length - ws)) ".merge-".data) ||
  strContains s "_conflict_".data || strContains s "_merged_".data ||
  strContains s ".conflicted.".data

/-- `FileNameAnalyzer.is_temp_file`. -/
def is_temp_file (name : String) : Bool :=
  let s := lowerData name
  strStartsWithL s ".#".data ||
  -- `^#.*#$`
  (decide (2 ≤ s.length) && strStartsWithL s "#".data && strEndsWith s "#".data) ||
  -- `^\..*\.swp$` and `^\..*\.tmp$`
  (decide (5 ≤ s.length) && strStartsWithL s ".".data && strEndsWith s ".swp".data) ||
  (decide (5 ≤ s.length) && strStartsWithL s ".".data && strEndsWith s ".tmp".data) ||
  strEndsWith s "~".data || strEndsWith s ".bak".data

/-- `re.sub(pattern, '', s)` for our patterns: scan left to right, drop
each non-overlapping match, resume after it.  The matcher receives the
current suffix and returns the match length there; all pattern matchers
below only ever return positive lengths. -/
def reSubF (m : List Char → Option Nat) : Nat → List Char → List Char
  | 0, s => s
  | fuel + 1, s =>
    match s with
    | [] => []
    | c :: rest =>
      match m (c :: rest) with
      | some k => if k = 0 then c :: reSubF m fuel rest
                  else reSubF m fuel (rest.drop (k - 1))
      | none => c :: reSubF m fuel rest

def reSubAll (m : List Char → Option Nat) (s : List Char) : List Char :=
  reSubF m s.length s

/-- Matcher for `TAG[^.]+$` (the `.BASE.`-style suffix patterns). -/
def mTagNonDotEnd (tag : List Char) (s : List Char) : Option Nat :=
  if matchLit tag s && !(s.drop tag.length).isEmpty &&
      (s.drop tag.length).all (fun c => c != '.') then
    some s.length
  else none

/-- Matcher for `TAG\d+` (unanchored `_BACKUP_`-style patterns). -/
def mTagDigits (tag : List Char) (s : List Char) : Option Nat :=
  if matchLit tag s && decide (0 < countLeadingDigits (s.drop tag.length)) then
    some (tag.length + countLeadingDigits (s.drop tag.length))
  else none

/-- Matcher for a plain `TAG$` pattern. -/
def mTagEnd (tag : List Char) (s : List Char) : Option Nat :=
  if lowerChars s == tag then some s.length else none

/-- Matcher for `\.r\d+$`. -/
def mDotRDigitsEnd (s : List Char) : Option Nat :=
  if matchLit ['.', 'r'] s && !(s.drop 2).isEmpty &&
      (s.drop 2).all Char.isDigit then
    some s.length
  else none

/-- Matcher for `TAG\w+$` (`.merge-` and `.conflicted.` patterns). -/
def mTagWordEnd (tag : List Char) (s : List Char) : Option Nat :=
  if matchLit tag s && !(s.drop tag.length).isEmpty &&
      (s.drop tag.length).all isWordChar then
    some s.length
  else none

/-- Matcher for `TAG\d*` (`_conflict_`/`_merged_` patterns). -/
def mTagDigitsStar (tag : List Char) (s : List Char) : Option Nat :=
  if matchLit tag s then some (tag.length + countLeadingDigits (s.drop tag.length))
  else none

/-- The `patterns_to_remove` list of `extract_base_name`, in source order. -/
def basePatterns : List (List Char → Option Nat) :=
  [ mTagNonDotEnd ".base.".data, mTagNonDotEnd ".local.".data,
    mTagNonDotEnd ".remote.".data, mTagNonDotEnd ".backup.".data,
    mTagDigits "_backup_".data, mTagDigits "_base_".data,
    mTagDigits "_local_".data, mTagDigits "_remote_".data,
    mTagEnd ".orig".data, mTagEnd ".rej".data, mTagEnd ".mine".data,
    mDotRDigitsEnd, mTagEnd ".working".data, mTagWordEnd ".merge-".data,
    mTagDigitsStar "_conflict_".data, mTagDigitsStar "_merged_".data,
    mTagWordEnd ".conflicted.".data ]

/-- `FileNameAnalyzer.extract_base_name`: apply every removal pattern in
order (each one as an exhaustive `re.sub` with empty replacement). -/
def extract_base_name (name : String) : String :=
  ⟨basePatterns.foldl (fun s m => reSubAll m s) name.data⟩

/-- `FileNameAnalyzer.calculate_name_similarity`: SequenceMatcher ratio
of the lowercased `os.path.splitext` stems. -/
def calculate_name_similarity (name1 name2 : String) : ℚ :=
  smScore (lowerChars (stemOf name1.data)) (lowerChars (stemOf name2.data))

/-- Loop of `FileNameAnalyzer.find_best_match`, carrying
`(best_match, best_score)`. -/
def fbmGo (targetBase : String) (threshold : ℚ) :
    List String → Option String × ℚ → Option String × ℚ
  | [], best => best
  | c :: rest, best =>
    if lowerData targetBase == lowerData (extract_base_name c) then (some c, 1)
    else
      let sim := calculate_name_similarity targetBase (extract_base_name c)
      if best.2 < sim ∧ threshold ≤ sim then
        fbmGo targetBase threshold rest (some c, sim)
      else fbmGo targetBase threshold rest best

/-- `FileNameAnalyzer.find_best_match` (the Python default threshold is
0.6; callers pass it explicitly here). -/
def find_best_match (target : String) (cands : List String) (threshold : ℚ) :
    Option String × ℚ :=
  fbmGo (extract_base_name target) threshold cands (none, 0)

/-- Stem similarity of the suffix-stripped names, as computed inside the
loop of `find_best_match`. -/
def fbmSim (target c : String) : ℚ :=
  calculate_name_similarity (extract_base_name target) (extract_base_name c)

/-- The exact-after-stripping comparison of `find_best_match`. -/
def fbmExact (target c : String) : Bool :=
  lowerData (extract_base_name target) == lowerData (extract_base_name c)

/-- `find_best_match` as claim C3 words it (reference definition for the
refinement comparison): the first exactly-matching candidate with score 1
when one exists; otherwise the first candidate attaining the maximum stem
similarity M together with M whenever M is at least the threshold, and
`(none, 0)` when no candidate reaches the threshold. -/
def bestMatchClaimed (target : String) (cands : List String) (threshold : ℚ) :
    Option String × ℚ :=
  match cands.find? (fbmExact target) with
  | some c => (some c, 1)
  | none =>
    if threshold ≤ (cands.map (fbmSim target)).foldr max 0 then
      (cands.find? (fun c => fbmSim target c == (cands.map (fbmSim target)).foldr max 0),
       (cands.map (fbmSim target)).foldr max 0)
    else (none, 0)

/-- The amended reference definition: a fuzzy result additionally needs a
strictly positive maximum, because the loop only accepts a candidate whose
similarity strictly exceeds the running best score, which starts at 0. -/
def bestMatchSpec (target : String) (cands : List String) (threshold : ℚ) :
    Option String × ℚ :=
  match cands.find? (fbmExact target) with
  | some c => (some c, 1)
  | none =>
    if threshold ≤ (cands.map (fbmSim target)).foldr max 0 ∧
        0 < (cands.map (fbmSim target)).foldr max 0 then
      (cands.find? (fun c => fbmSim target c == (cands.map (fbmSim target)).foldr max 0),
       (cands.map (fbmSim target)).foldr max 0)
    else (none, 0)

/-! ### find_best_match lemmas -/

theorem foldr_max_ge_base (l : List ℚ) (b : ℚ) : b ≤ l.foldr max b := by
  induction l with
  | nil => exact le_refl b
  | cons x xs ih => exact le_trans ih (le_max_right x _)

theorem le_foldr_max (l : List ℚ) (b : ℚ) : ∀ x ∈ l, x ≤ l.foldr max b := by
  induction l with
  | nil => intro x hx; simp at hx
  | cons y ys ih =>
    intro x hx
    rw [List.foldr_cons]
    rcases List.mem_cons.mp hx with rfl | h
    · exact le_max_left _ _
    · exact le_trans (ih x h) (le_max_right _ _)

theorem foldr_max_mem (l : List ℚ) (b : ℚ) : l.foldr max b = b ∨ l.foldr max b ∈ l := by
  induction l with
  | nil => left; rfl
  | cons x xs ih =>
    rw [List.foldr_cons]
    rcases max_cases x (xs.foldr max b) with ⟨h1, _⟩ | ⟨h1, _⟩
    · right
      rw [h1]
      exact List.mem_cons_self _ _
    · rw [h1]
      rcases ih with h | h
      · left; exact h
      · right; exact List.mem_cons_of_mem _ h

theorem foldr_max_le (l : List ℚ) (b c : ℚ) (hb : b ≤ c) (h : ∀ x ∈ l, x ≤ c) :
    l.foldr max b ≤ c := by
  induction l with
  | nil => exact hb
  | cons y ys ih =>
    rw [List.foldr_cons]
    refine max_le (h y (List.mem_cons_self _ _)) (ih ?_)
    intro x hx
    exact h x (List.mem_cons_of_mem _ hx)

theorem foldr_max_mono_base (l : List ℚ) (b c : ℚ) (hbc : b ≤ c) :
    l.foldr max c = max c (l.foldr max b) := by
  induction l with
  | nil => simp [max_eq_left hbc]
  | cons x xs ih =>
    rw [List.foldr_cons, List.foldr_cons, ih, max_left_comm]

theorem fbmGo_cons (t : String) (th : ℚ) (c : String) (rest : List String)
    (best : Option String × ℚ) :
    fbmGo (extract_base_name t) th (c :: rest) best =
      if fbmExact t c then (some c, 1)
      else if best.2 < fbmSim t c ∧ th ≤ fbmSim t c then
        fbmGo (extract_base_name t) th rest (some c, fbmSim t c)
      else fbmGo (extract_base_name t) th rest best := rfl

/-- Reaching the first exactly-matching candidate short-circuits the scan
whatever the accumulator holds. -/
theorem fbmGo_exact (t : String) (th : ℚ) :
    ∀ (cs1 : List String), (∀ x ∈ cs1, fbmExact t x = false) →
      ∀ (c : String), fbmExact t c = true →
        ∀ (cs2 : List String) (acc : Option String × ℚ),
          fbmGo (extract_base_name t) th (cs1 ++ c :: cs2) acc = (some c, 1) := by
  intro cs1
  induction cs1 with
  | nil =>
    intro _ c hc cs2 acc
    rw [List.nil_append, fbmGo_cons, hc]
    simp
  | cons d rest ih =>
    intro h c hc cs2 acc
    have hd : fbmExact t d = false := h d (List.mem_cons_self _ _)
    rw [List.cons_append, fbmGo_cons, hd]
    simp only [Bool.false_eq_true, if_false]
    split
    · exact ih (fun x hx => h x (List.mem_cons_of_mem _ hx)) c hc cs2 _
    · exact ih (fun x hx => h x (List.mem_cons_of_mem _ hx)) c hc cs2 _

/-- Closed form of the scanning loop on a stretch with no exact match:
the final score is the maximum of the accumulator and the similarities
that reach the threshold, and the reported candidate is the first one
attaining it, provided the score strictly improved. -/
theorem fbmGo_spec (t : String) (th : ℚ) :
    ∀ (cs : List String) (best : Option String) (bs : ℚ),
      (∀ c ∈ cs, fbmExact t c = false) →
      fbmGo (extract_base_name t) th cs (best, bs) =
        if bs < ((cs.map (fbmSim t)).filter (fun s => th ≤ s)).foldr max bs then
          (cs.find? (fun c =>
            fbmSim t c == ((cs.map (fbmSim t)).filter (fun s => th ≤ s)).foldr max bs),
           ((cs.map (fbmSim t)).filter (fun s => th ≤ s)).foldr max bs)
        else (best, bs) := by
  intro cs
  induction cs with
  | nil =>
    intro best bs h
    simp [fbmGo]
  | cons c rest ih =>
    intro best bs h
    have hc : fbmExact t c = false := h c (List.mem_cons_self _ _)
    have hrest : ∀ x ∈ rest, fbmExact t x = false :=
      fun x hx => h x (List.mem_cons_of_mem _ hx)
    rw [fbmGo_cons, hc]
    simp only [Bool.false_eq_true, if_false]
    have hgeRest : bs ≤ ((rest.map (fbmSim t)).filter (fun s => th ≤ s)).foldr max bs :=
      foldr_max_ge_base _ bs
    by_cases hacc : bs < fbmSim t c ∧ th ≤ fbmSim t c
    · rw [if_pos hacc, ih (some c) (fbmSim t c) hrest]
      have hfilter : ((c :: rest).map (fbmSim t)).filter (fun s => th ≤ s) =
          fbmSim t c :: (rest.map (fbmSim t)).filter (fun s => th ≤ s) := by
        rw [List.map_cons, List.filter_cons]
        simp [hacc.2]
      have hFall : (((c :: rest).map (fbmSim t)).filter (fun s => th ≤ s)).foldr max bs =
          ((rest.map (fbmSim t)).filter (fun s => th ≤ s)).foldr max (fbmSim t c) := by
        rw [hfilter, List.foldr_cons,
          foldr_max_mono_base _ bs (fbmSim t c) (le_of_lt hacc.1)]
      rw [hFall]
      have hsF : fbmSim t c ≤
          ((rest.map (fbmSim t)).filter (fun s => th ≤ s)).foldr max (fbmSim t c) :=
        foldr_max_ge_base _ _
      by_cases hlt : fbmSim t c <
          ((rest.map (fbmSim t)).filter (fun s => th ≤ s)).foldr max (fbmSim t c)
      · rw [if_pos hlt, if_pos (lt_trans hacc.1 hlt)]
        rw [List.find?_cons_of_neg]
        simp only [beq_iff_eq]
        exact ne_of_lt hlt
      · have heqF : ((rest.map (fbmSim t)).filter (fun s => th ≤ s)).foldr max
            (fbmSim t c) = fbmSim t c := le_antisymm (not_lt.mp hlt) hsF
        rw [if_neg hlt, heqF, if_pos hacc.1, List.find?_cons_of_pos]
        simp
    · rw [if_neg hacc, ih best bs hrest]
      by_cases hth : th ≤ fbmSim t c
      · have hsbs : fbmSim t c ≤ bs := by
          rcases not_and_or.mp hacc with h' | h'
          · exact not_lt.mp h'
          · exact absurd hth h'
        have hfilter : ((c :: rest).map (fbmSim t)).filter (fun s => th ≤ s) =
            fbmSim t c :: (rest.map (fbmSim t)).filter (fun s => th ≤ s) := by
          rw [List.map_cons, List.filter_cons]
          simp [hth]
        have hFall : (((c :: rest).map (fbmSim t)).filter (fun s => th ≤ s)).foldr max bs =
            ((rest.map (fbmSim t)).filter (fun s => th ≤ s)).foldr max bs := by
          rw [hfilter, List.foldr_cons]
          exact max_eq_right (le_trans hsbs hgeRest)
        rw [hFall]
        split
        · rename_i hbsF
          rw [List.find?_cons_of_neg]
          simp only [beq_iff_eq]
          exact ne_of_lt (lt_of_le_of_lt hsbs hbsF)
        · rfl
      · have hfilter : ((c :: rest).map (fbmSim t)).filter (fun s => th ≤ s) =
            (rest.map (fbmSim t)).filter (fun s => th ≤ s) := by
          rw [List.map_cons, List.filter_cons]
          simp [hth]
        rw [hfilter]
        split
        · rename_i hbsF
          rw [List.find?_cons_of_neg]
          simp only [beq_iff_eq]
          intro hEq
          rcases foldr_max_mem ((rest.map (fbmSim t)).filter (fun s => th ≤ s)) bs with
            hF | hF
          · rw [hF] at hbsF
            exact absurd hbsF (lt_irrefl bs)
          · have hmf := (List.mem_filter.mp hF).2
            have hthF : th ≤ ((rest.map (fbmSim t)).filter (fun s => th ≤ s)).foldr max bs := by
              simpa using hmf
            rw [← hEq] at hthF
            exact hth hthF
        · rfl

/-- **C3 counterexample.** The claim quantifies over every threshold; at
threshold 0 with candidate list `["b.java"]` and target `"a.java"`, the
maximum stem similarity is 0, which is at least the threshold, so the
claim as stated requires `(some "b.java", 0)`, but the loop only accepts
a candidate whose similarity strictly exceeds the running best score 0
and therefore returns `(none, 0)`. -/
theorem claim_C3_counterexample :
    find_best_match "a.java" ["b.java"] 0 ≠ bestMatchClaimed "a.java" ["b.java"] 0 := by
  have h0 : matchedTotal (lowerChars (stemOf (extract_base_name "a.java").data))
      (lowerChars (stemOf (extract_base_name "b.java").data)) = 0 := by decide
  have hl1 : (lowerChars (stemOf (extract_base_name "a.java").data)).length = 1 := by
    decide
  have hl2 : (lowerChars (stemOf (extract_base_name "b.java").data)).length = 1 := by
    decide
  have hsim : fbmSim "a.java" "b.java" = 0 := by
    rw [fbmSim, calculate_name_similarity, smScore, h0, hl1, hl2]
    norm_num
  have hne : fbmExact "a.java" "b.java" = false := by decide
  have hL : find_best_match "a.java" ["b.java"] 0 = (none, 0) := by
    rw [find_best_match, fbmGo_cons, hne]
    simp only [Bool.false_eq_true, if_false, hsim]
    norm_num [fbmGo]
  have hfind : (["b.java"] : List String).find? (fbmExact "a.java") = none := by
    rw [List.find?_eq_none]
    intro x hx
    rcases List.mem_singleton.mp hx with rfl
    simp [hne]
  have hR : bestMatchClaimed "a.java" ["b.java"] 0 = (some "b.java", 0) := by
    unfold bestMatchClaimed
    rw [hfind]
    simp only [List.map_cons, List.map_nil, List.foldr_cons, List.foldr_nil, hsim, max_self]
    rw [if_pos (le_refl (0 : ℚ))]
    rw [List.find?_cons_of_pos _ (by simp [hsim])]
  rw [hL, hR]
  simp

/-- **C3 (amended).** `find_best_match` behaves as the claim states with
one strengthening: a fuzzy result is returned only when the maximum stem
similarity both reaches the threshold and is strictly positive (for a
positive threshold this is exactly the claim); the short-circuiting
exact-match case and the first-wins tie-break are as claimed. -/
theorem claim_C3_amended_best_match (t : String) (cs : List String) (th : ℚ) :
    find_best_match t cs th = bestMatchSpec t cs th := by
  unfold bestMatchSpec
  cases hfind : cs.find? (fbmExact t) with
  | some c =>
    obtain ⟨hpc, as, bs', heq, hall⟩ := List.find?_eq_some.mp hfind
    subst heq
    rw [find_best_match]
    rw [fbmGo_exact t th as (fun x hx => by simpa using hall x hx) c hpc bs' (none, 0)]
  | none =>
    have hne : ∀ c ∈ cs, fbmExact t c = false := by
      intro c hc
      have := List.find?_eq_none.mp hfind c hc
      simpa using this
    rw [find_best_match, fbmGo_spec t th cs none 0 hne]
    simp only []
    have hM0 : (0 : ℚ) ≤ (cs.map (fbmSim t)).foldr max 0 := foldr_max_ge_base _ 0
    have hFM : ((cs.map (fbmSim t)).filter (fun s => th ≤ s)).foldr max 0 ≤
        (cs.map (fbmSim t)).foldr max 0 := by
      refine foldr_max_le _ 0 _ hM0 ?_
      intro x hx
      exact le_foldr_max _ 0 x (List.mem_filter.mp hx).1
    by_cases hM : th ≤ (cs.map (fbmSim t)).foldr max 0 ∧
        0 < (cs.map (fbmSim t)).foldr max 0
    · have hmem : (cs.map (fbmSim t)).foldr max 0 ∈ cs.map (fbmSim t) := by
        rcases foldr_max_mem (cs.map (fbmSim t)) 0 with h | h
        · rw [h] at hM
          exact absurd hM.2 (lt_irrefl 0)
        · exact h
      have hmemF : (cs.map (fbmSim t)).foldr max 0 ∈
          (cs.map (fbmSim t)).filter (fun s => th ≤ s) := by
        rw [List.mem_filter]
        exact ⟨hmem, by simpa using hM.1⟩
      have hFeq : ((cs.map (fbmSim t)).filter (fun s => th ≤ s)).foldr max 0 =
          (cs.map (fbmSim t)).foldr max 0 :=
        le_antisymm hFM (le_foldr_max _ 0 _ hmemF)
      rw [hFeq, if_pos hM.2, if_pos hM]
    · have hF0 : ((cs.map (fbmSim t)).filter (fun s => th ≤ s)).foldr max 0 = 0 := by
        by_contra hF
        have hFpos : 0 < ((cs.map (fbmSim t)).filter (fun s => th ≤ s)).foldr max 0 :=
          lt_of_le_of_ne (foldr_max_ge_base _ 0) (Ne.symm hF)
        rcases foldr_max_mem ((cs.map (fbmSim t)).filter (fun s => th ≤ s)) 0 with h | h
        · exact hF h
        · have hmf := List.mem_filter.mp h
          have hth : th ≤ ((cs.map (fbmSim t)).filter (fun s => th ≤ s)).foldr max 0 := by
            simpa using hmf.2
          exact hM ⟨le_trans hth hFM, lt_of_lt_of_le hFpos hFM⟩
      rw [hF0, if_neg (lt_irrefl 0), if_neg hM]

/-! ## RecursiveFileScanner -/

mutual
/-- Filesystem model: a directory with a readability flag, its plain
files, and its named subdirectories. -/
inductive FSTree where
  | node (readable : Bool) (files : List String) (subdirs : FSForest)
inductive FSForest where
  | nil
  | cons (name : String) (t : FSTree) (rest : FSForest)
end

/-- Relative-path join, with `''` standing for the scan root
(`os.path.relpath(root, directory)` turns `'.'` into `''` in the source). -/
def joinRel (rel name : String) : String :=
  if rel = "" then name else rel ++ "/" ++ name

mutual
/-- `os.walk` with its default error handling (`onerror=None`): listing
an unreadable directory raises inside `scandir`, the error is ignored,
so the directory yields no entry and its subtree is never visited. -/
def osWalkRel : FSTree → String → List (String × List String)
  | .node readable files subs, rel =>
    if readable then (rel, files) :: osWalkForest subs rel else []
def osWalkForest : FSForest → String → List (String × List String)
  | .nil, _ => []
  | .cons name t rest, rel => osWalkRel t (joinRel rel name) ++ osWalkForest rest rel
end

/-- The scanner's default extension allow-list. -/
def defaultExtensions : List String :=
  [".java", ".py", ".cpp", ".c", ".h", ".hpp", ".js", ".ts", ".xml", ".json"]

/-- `RecursiveFileScanner.scan_directory`: walk, keep files with an
allowed extension that are not temp files, and record a directory only
when it has at least one qualifying file. -/
def scan_directory (exts : List String) (t : FSTree) : List (String × List String) :=
  (osWalkRel t "").filterMap (fun p =>
    let valid := p.2.filter
      (fun f => exts.any (fun e => strEndsWith f.data e.data) && !(is_temp_file f))
    if valid = [] then none else some (p.1, valid))

/-- Readability flag of the root of a tree. -/
def treeReadable : FSTree → Bool
  | .node r _ _ => r

mutual
/-- Whether any directory of the tree (its root included) is unreadable. -/
def hasUnreadable : FSTree → Bool
  | .node r _ subs => !r || hasUnreadableF subs
def hasUnreadableF : FSForest → Bool
  | .nil => false
  | .cons _ t rest => hasUnreadable t || hasUnreadableF rest
end

mutual
/-- Delete every unreadable subdirectory (the root's own flag is kept). -/
def pruneTree : FSTree → FSTree
  | .node r files subs => .node r files (pruneForest subs)
def pruneForest : FSForest → FSForest
  | .nil => .nil
  | .cons name t rest =>
    if treeReadable t then .cons name (pruneTree t) (pruneForest rest)
    else pruneForest rest
end

/-! ## Correspondence Resolver -/

/-- One correspondence record (`scenarioKey` is the source's `scenario`
field). -/
structure Corr where
  type : String
  scenarioKey : String
  merge_file : Option String
  expected_file : Option String
  match_score : ℚ
  quality_issues : List String
deriving DecidableEq

/-- Scenario key `"{path}/{file}"`, bare filename when the path is empty
(the empty string is falsy in Python). -/
def scenarioOf (path f : String) : String :=
  if path = "" then f else path ++ "/" ++ f

/-- Candidate expected list for a merge path: exact lookup first; when
that yields nothing, the first expected path whose sequence similarity
to the merge path exceeds 0.8 supplies its file list. -/
def candidateExpected (expectedFiles : List (String × List String))
    (mergePath : String) : List String :=
  let direct := match expectedFiles.lookup mergePath with
    | some l => l
    | none => []
  if direct = [] then
    match expectedFiles.find? (fun p => (4 : ℚ)/5 < smScore mergePath.data p.1.data) with
    | some p => p.2
    | none => []
  else direct

/-- Body of the per-merge-file loop of `find_corresponding_files`:
conflict check, verbatim membership, then fuzzy matching with the 0.6
threshold (Python's `if best_match:` treats both `None` and the empty
string as no match). -/
def classifyMergeFile (mergePath : String) (expectedList : List String)
    (mergeFile : String) : Corr :=
  if is_conflict_file mergeFile then
    ⟨"conflict_file", scenarioOf mergePath mergeFile, some mergeFile, none, 0,
      ["conflict_file"]⟩
  else if mergeFile ∈ expectedList then
    ⟨"exact_match", scenarioOf mergePath mergeFile, some mergeFile, some mergeFile, 1, []⟩
  else
    if ((find_best_match mergeFile expectedList ((3 : ℚ)/5)).1.getD "") ≠ "" then
      ⟨"fuzzy_match", scenarioOf mergePath mergeFile, some mergeFile,
        (find_best_match mergeFile expectedList ((3 : ℚ)/5)).1,
        (find_best_match mergeFile expectedList ((3 : ℚ)/5)).2,
        if (find_best_match mergeFile expectedList ((3 : ℚ)/5)).2 < (9 : ℚ)/10 then
          ["name_mismatch"]
        else []⟩
    else
      ⟨"no_match", scenarioOf mergePath mergeFile, some mergeFile, none, 0,
        ["missing_correspondence"]⟩

/-- First pass of the resolver, in merge-index iteration order. -/
def mergePassCorrs (mergeFiles expectedFiles : List (String × List String)) :
    List Corr :=
  mergeFiles.flatMap (fun mp =>
    mp.2.map (classifyMergeFile mp.1 (candidateExpected expectedFiles mp.1)))

/-- The four counters of `merge_stats`. -/
structure MatchStats where
  exact_matches : Nat
  fuzzy_matches : Nat
  no_matches : Nat
  conflict_files : Nat
deriving DecidableEq

/-- The loop increments exactly one counter per classified merge file,
so the counts are the per-kind occurrence counts of the first pass. -/
def statsOf (l : List Corr) : MatchStats :=
  ⟨l.countP (fun c => c.type == "exact_match"),
   l.countP (fun c => c.type == "fuzzy_match"),
   l.countP (fun c => c.type == "no_match"),
   l.countP (fun c => c.type == "conflict_file")⟩

/-- The membership test of the second pass: the expected file is already
named as `expected_file` by a correspondence whose scenario key starts
with the expected path. -/
def claimedIn (corrs : List Corr) (expPath expFile : String) : Bool :=
  corrs.any (fun c => c.expected_file == some expFile &&
    List.isPrefixOf expPath.data c.scenarioKey.data)

def missingCorr (expPath expFile : String) : Corr :=
  ⟨"missing_in_merge", scenarioOf expPath expFile, none, some expFile, 0,
    ["missing_in_merge"]⟩

def addMissingFile (expPath : String) (acc : List Corr) (expFile : String) :
    List Corr :=
  if claimedIn acc expPath expFile then acc else acc ++ [missingCorr expPath expFile]

def addMissingPath (acc : List Corr) (p : String × List String) : List Corr :=
  p.2.foldl (addMissingFile p.1) acc

/-- `RecursiveFileScanner.find_corresponding_files`. -/
def find_corresponding_files (mergeFiles expectedFiles : List (String × List String)) :
    List Corr × MatchStats :=
  let l1 := mergePassCorrs mergeFiles expectedFiles
  (expectedFiles.foldl addMissingPath l1, statsOf l1)

/-- The second pass as the specification words it: walk the expected
index and, for each file not already recorded as the `expected_file` of
some correspondence (earlier emissions of this very pass included) whose
scenario key starts with the file's path, emit one `missing_in_merge`
correspondence with score 0 and issue `missing_in_merge`; only the new
entries are returned.  Exact-prefix checking only — no fuzzy path
fallback in this direction. -/
def missingSpecFiles (expPath : String) : List String → List Corr → List Corr
  | [], _ => []
  | f :: fs, recorded =>
    if claimedIn recorded expPath f then missingSpecFiles expPath fs recorded
    else missingCorr expPath f ::
      missingSpecFiles expPath fs (recorded ++ [missingCorr expPath f])

def missingSpec : List (String × List String) → List Corr → List Corr
  | [], _ => []
  | p :: rest, recorded =>
    missingSpecFiles p.1 p.2 recorded ++
      missingSpec rest (recorded ++ missingSpecFiles p.1 p.2 recorded)

/-! ## MergeComparator -/

/-- The metric record of `calculate_metrics` (`similarity_score` is the
source's `similarity_ratio` entry). -/
structure MetricSet where
  precision : ℚ
  «recall» : ℚ
  f1_score : ℚ
  line_order_accuracy : ℚ
  similarity_score : ℚ
  total_expected_lines : Nat
  total_merge_lines : Nat
  correct_lines : Nat
  extra_lines : Nat
  missing_lines : Nat
  error_rate : ℚ
deriving DecidableEq

/-- `len(merge_set & expected_set)`: the true-positive count. -/
def tpOf (mergeLines expectedLines : List String) : Nat :=
  (mergeLines.toFinset ∩ expectedLines.toFinset).card

/-- `len(merge_set - expected_set)`: extra lines in the merge. -/
def fpOf (mergeLines expectedLines : List String) : Nat :=
  (mergeLines.toFinset \ expectedLines.toFinset).card

/-- `len(expected_set - merge_set)`: lines missing from the merge. -/
def fnOf (mergeLines expectedLines : List String) : Nat :=
  (expectedLines.toFinset \ mergeLines.toFinset).card

/-- Positions below the shorter length where the two lists agree. -/
def orderMatches (mergeLines expectedLines : List String) : Nat :=
  (List.range (min mergeLines.length expectedLines.length)).countP
    (fun i => mergeLines.get? i == expectedLines.get? i)

/-- `MergeComparator.calculate_metrics` on the two normalized line lists. -/
def calculate_metrics (mergeLines expectedLines : List String) : MetricSet :=
  let tp := tpOf mergeLines expectedLines
  let fp := fpOf mergeLines expectedLines
  let fn := fnOf mergeLines expectedLines
  let precision : ℚ := if 0 < tp + fp then (tp : ℚ) / (tp + fp) else 0
  let rcl : ℚ := if 0 < tp + fn then (tp : ℚ) / (tp + fn) else 0
  let f1 : ℚ :=
    if 0 < precision + rcl then 2 * (precision * rcl) / (precision + rcl) else 0
  let maxLines := max mergeLines.length expectedLines.length
  let loa : ℚ :=
    if 0 < maxLines then (orderMatches mergeLines expectedLines : ℚ) / maxLines else 0
  ⟨precision, rcl, f1, loa, smScore mergeLines expectedLines,
    expectedLines.toFinset.card, mergeLines.toFinset.card, tp, fp, fn, 1 - precision⟩

/-! ### Comparator lemmas -/

theorem cm_precision (A B : List String) :
    (calculate_metrics A B).precision =
      if 0 < tpOf A B + fpOf A B then (tpOf A B : ℚ) / (tpOf A B + fpOf A B) else 0 := rfl

theorem cm_recall (A B : List String) :
    (calculate_metrics A B).recall =
      if 0 < tpOf A B + fnOf A B then (tpOf A B : ℚ) / (tpOf A B + fnOf A B) else 0 := rfl

theorem cm_f1 (A B : List String) :
    (calculate_metrics A B).f1_score =
      if 0 < (calculate_metrics A B).precision + (calculate_metrics A B).recall then
        2 * ((calculate_metrics A B).precision * (calculate_metrics A B).recall) /
          ((calculate_metrics A B).precision + (calculate_metrics A B).recall)
      else 0 := rfl

theorem cm_loa (A B : List String) :
    (calculate_metrics A B).line_order_accuracy =
      if 0 < max A.length B.length then
        (orderMatches A B : ℚ) / (max A.length B.length)
      else 0 := rfl

theorem cm_sim (A B : List String) :
    (calculate_metrics A B).similarity_score = smScore A B := rfl

theorem cm_err (A B : List String) :
    (calculate_metrics A B).error_rate = 1 - (calculate_metrics A B).precision := rfl

theorem cm_extra (A B : List String) :
    (calculate_metrics A B).extra_lines = fpOf A B := rfl

theorem cm_missing (A B : List String) :
    (calculate_metrics A B).missing_lines = fnOf A B := rfl

theorem divGuard_bounds (a d : Nat) (h : a ≤ d) :
    0 ≤ (if 0 < d then (a : ℚ) / d else 0) ∧ (if 0 < d then (a : ℚ) / d else 0) ≤ 1 := by
  split
  · rename_i hd
    have hdq : (0 : ℚ) < d := by exact_mod_cast hd
    constructor
    · positivity
    · rw [div_le_one hdq]
      exact_mod_cast h
  · norm_num

/-- **C2.** For all normalized line lists A (merge side) and B (expected
side), `calculate_metrics` computes precision, recall and F1 with the
claimed zero-denominator guards, the error rate as one minus precision,
and the line-order accuracy as the positionwise agreement count over the
longer length, 0 when both lists are empty. -/
theorem claim_C2_metric_formulas (A B : List String) :
    ((calculate_metrics A B).precision =
      if 0 < (A.toFinset ∩ B.toFinset).card + (A.toFinset \ B.toFinset).card then
        ((A.toFinset ∩ B.toFinset).card : ℚ) /
          ((A.toFinset ∩ B.toFinset).card + (A.toFinset \ B.toFinset).card)
      else 0) ∧
    ((calculate_metrics A B).recall =
      if 0 < (A.toFinset ∩ B.toFinset).card + (B.toFinset \ A.toFinset).card then
        ((A.toFinset ∩ B.toFinset).card : ℚ) /
          ((A.toFinset ∩ B.toFinset).card + (B.toFinset \ A.toFinset).card)
      else 0) ∧
    ((calculate_metrics A B).f1_score =
      if 0 < (calculate_metrics A B).precision + (calculate_metrics A B).recall then
        2 * ((calculate_metrics A B).precision * (calculate_metrics A B).recall) /
          ((calculate_metrics A B).precision + (calculate_metrics A B).recall)
      else 0) ∧
    ((calculate_metrics A B).error_rate = 1 - (calculate_metrics A B).precision) ∧
    ((calculate_metrics A B).line_order_accuracy =
      if A = [] ∧ B = [] then 0
      else ((List.range (min A.length B.length)).countP
          (fun i => A.get? i == B.get? i) : ℚ) / (max A.length B.length)) := by
  refine ⟨rfl, rfl, rfl, rfl, ?_⟩
  rw [cm_loa]
  by_cases h : A = [] ∧ B = []
  · obtain ⟨h1, h2⟩ := h
    subst h1
    subst h2
    simp
  · have hA : A ≠ [] ∨ B ≠ [] := not_and_or.mp h
    have hmax : 0 < max A.length B.length := by
      rcases hA with h' | h'
      · have := List.length_pos.mpr h'
        omega
      · have := List.length_pos.mpr h'
        omega
    rw [if_pos hmax, if_neg h]
    rfl

/-- **C9 counterexample.** The claim fails for the pair of (identical)
empty line lists: the precision guard fires and yields 0, not 1. -/
theorem claim_C9_counterexample :
    (calculate_metrics ([] : List String) []).precision ≠ 1 := by
  rw [cm_precision]
  norm_num [tpOf, fpOf]

/-- **C9 (amended).** For every nonempty normalized line list A compared
with itself, all ratio metrics are 1, the error rate is 0, and the extra
and missing counts are 0; for the empty list the set-based guards fire
instead and precision, recall, F1 and line-order accuracy are all 0. -/
theorem claim_C9_amended_self (A : List String) (hA : A ≠ []) :
    (calculate_metrics A A).precision = 1 ∧
    (calculate_metrics A A).recall = 1 ∧
    (calculate_metrics A A).f1_score = 1 ∧
    (calculate_metrics A A).similarity_score = 1 ∧
    (calculate_metrics A A).line_order_accuracy = 1 ∧
    (calculate_metrics A A).error_rate = 0 ∧
    (calculate_metrics A A).extra_lines = 0 ∧
    (calculate_metrics A A).missing_lines = 0 := by
  have htp : tpOf A A = A.toFinset.card := by rw [tpOf, Finset.inter_self]
  have hfp : fpOf A A = 0 := by rw [fpOf, Finset.sdiff_self, Finset.card_empty]
  have hfn : fnOf A A = 0 := by rw [fnOf, Finset.sdiff_self, Finset.card_empty]
  have hcard : 0 < A.toFinset.card := by
    rw [Finset.card_pos]
    rw [Finset.nonempty_iff_ne_empty]
    simpa using hA
  have hcast : (A.toFinset.card : ℚ) ≠ 0 := by
    have hne : A.toFinset.card ≠ 0 := by omega
    exact_mod_cast hne
  have hp : (calculate_metrics A A).precision = 1 := by
    rw [cm_precision, htp, hfp]
    rw [if_pos (by omega)]
    push_cast
    rw [add_zero, div_self hcast]
  have hr : (calculate_metrics A A).recall = 1 := by
    rw [cm_recall, htp, hfn]
    rw [if_pos (by omega)]
    push_cast
    rw [add_zero, div_self hcast]
  have hlen : 0 < A.length := List.length_pos.mpr hA
  have hlcast : (A.length : ℚ) ≠ 0 := by
    have hne : A.length ≠ 0 := by omega
    exact_mod_cast hne
  have hom : orderMatches A A = A.length := by
    rw [orderMatches, Nat.min_self]
    rw [List.countP_eq_length.mpr]
    · exact List.length_range _
    · intro a _
      simp
  refine ⟨hp, hr, ?_, ?_, ?_, ?_, ?_, ?_⟩
  · rw [cm_f1, hp, hr]
    norm_num
  · rw [cm_sim]
    exact (smScore_eq_one_iff A A).mpr rfl
  · rw [cm_loa, Nat.max_self, if_pos hlen, hom, div_self hlcast]
  · rw [cm_err, hp]
    norm_num
  · rw [cm_extra, hfp]
  · rw [cm_missing, hfn]

/-- Witness for C9 (amended) at the singleton list. -/
theorem claim_C9_witness :
    (["a"] : List String) ≠ [] ∧ (calculate_metrics ["a"] ["a"]).precision = 1 :=
  ⟨by decide, (claim_C9_amended_self ["a"] (by decide)).1⟩

/-- **C10.** Every ratio field of the returned metric set — precision,
recall, F1, line-order accuracy, sequence-similarity and error rate —
lies in [0, 1], for all inputs including the degenerate ones. -/
theorem claim_C10_metric_bounds (A B : List String) :
    (0 ≤ (calculate_metrics A B).precision ∧ (calculate_metrics A B).precision ≤ 1) ∧
    (0 ≤ (calculate_metrics A B).recall ∧ (calculate_metrics A B).recall ≤ 1) ∧
    (0 ≤ (calculate_metrics A B).f1_score ∧ (calculate_metrics A B).f1_score ≤ 1) ∧
    (0 ≤ (calculate_metrics A B).line_order_accuracy ∧
      (calculate_metrics A B).line_order_accuracy ≤ 1) ∧
    (0 ≤ (calculate_metrics A B).similarity_score ∧
      (calculate_metrics A B).similarity_score ≤ 1) ∧
    (0 ≤ (calculate_metrics A B).error_rate ∧ (calculate_metrics A B).error_rate ≤ 1) := by
  have hp : 0 ≤ (calculate_metrics A B).precision ∧ (calculate_metrics A B).precision ≤ 1 := by
    rw [cm_precision]
    have := divGuard_bounds (tpOf A B) (tpOf A B + fpOf A B) (by omega)
    push_cast at this ⊢
    exact this
  have hr : 0 ≤ (calculate_metrics A B).recall ∧ (calculate_metrics A B).recall ≤ 1 := by
    rw [cm_recall]
    have := divGuard_bounds (tpOf A B) (tpOf A B + fnOf A B) (by omega)
    push_cast at this ⊢
    exact this
  have hloa : 0 ≤ (calculate_metrics A B).line_order_accuracy ∧
      (calculate_metrics A B).line_order_accuracy ≤ 1 := by
    rw [cm_loa]
    have hle : orderMatches A B ≤ max A.length B.length := by
      have h1 : orderMatches A B ≤ min A.length B.length := by
        rw [orderMatches]
        have := List.countP_le_length
          (p := fun i => A.get? i == B.get? i)
          (l := List.range (min A.length B.length))
        simpa using this
      omega
    exact divGuard_bounds (orderMatches A B) (max A.length B.length) hle
  have hf : 0 ≤ (calculate_metrics A B).f1_score ∧ (calculate_metrics A B).f1_score ≤ 1 := by
    rw [cm_f1]
    split
    · rename_i hpr
      constructor
      · apply div_nonneg
        · nlinarith [hp.1, hr.1]
        · linarith
      · rw [div_le_one hpr]
        nlinarith [mul_nonneg (sub_nonneg.mpr hp.2) hr.1,
          mul_nonneg (sub_nonneg.mpr hr.2) hp.1]
    · norm_num
  refine ⟨hp, hr, hf, hloa, ?_, ?_⟩
  · rw [cm_sim]
    exact ⟨smScore_nonneg A B, smScore_le_one A B⟩
  · rw [cm_err]
    constructor
    · linarith [hp.2]
    · linarith [hp.1]

/-! ### Name-similarity claims -/

/-- **C7 counterexample.** `calculate_name_similarity` is not symmetric:
the greedy longest-block recursion of `SequenceMatcher` matches only `x`
for `("xyuz", "ywzvx")` (the block starting earliest in the first
argument wins and discards everything else) but matches `y` and `z` in
the swapped order, giving 2/9 against 4/9. -/
theorem claim_C7_counterexample :
    calculate_name_similarity "xyuz" "ywzvx" ≠ calculate_name_similarity "ywzvx" "xyuz" := by
  have h1 : matchedTotal (lowerChars (stemOf "xyuz".data))
      (lowerChars (stemOf "ywzvx".data)) = 1 := by decide
  have h2 : matchedTotal (lowerChars (stemOf "ywzvx".data))
      (lowerChars (stemOf "xyuz".data)) = 2 := by decide
  have hl1 : (lowerChars (stemOf "xyuz".data)).length = 4 := by decide
  have hl2 : (lowerChars (stemOf "ywzvx".data)).length = 5 := by decide
  rw [calculate_name_similarity, calculate_name_similarity, smScore, smScore,
    h1, h2, hl1, hl2]
  norm_num

/-- **C7 (amended).** The similarity always lies in [0, 1] and equals 1
exactly when the lowercased extension-stripped stems coincide; symmetry,
however, fails in general (see the counterexample). -/
theorem claim_C7_amended_similarity (name1 name2 : String) :
    0 ≤ calculate_name_similarity name1 name2 ∧
    calculate_name_similarity name1 name2 ≤ 1 ∧
    (calculate_name_similarity name1 name2 = 1 ↔
      lowerChars (stemOf name1.data) = lowerChars (stemOf name2.data)) := by
  rw [calculate_name_similarity]
  exact ⟨smScore_nonneg _ _, smScore_le_one _ _, smScore_eq_one_iff _ _⟩

/-- **C8 counterexample.** `extract_base_name` is not idempotent: on
`a.BASE.x.orig` the first pass only strips `.orig` (the `\.BASE\.[^.]+$`
pattern cannot cross the second dot), and the second pass then strips
`.BASE.x`, so applying it twice differs from applying it once. -/
theorem claim_C8_counterexample :
    extract_base_name (extract_base_name "a.BASE.x.orig") ≠
      extract_base_name "a.BASE.x.orig" := by decide

/-- **C8 (amended).** On the claim's examples the property holds: both
`Foo.BASE.java` and `Foo.java` strip to a name with stem `Foo`, and on
these two inputs a second application changes nothing; idempotence in
general, however, fails (see the counterexample). -/
theorem claim_C8_amended_examples :
    stemOf (extract_base_name "Foo.BASE.java").data = "Foo".data ∧
    stemOf (extract_base_name "Foo.java").data = "Foo".data ∧
    extract_base_name (extract_base_name "Foo.BASE.java") =
      extract_base_name "Foo.BASE.java" ∧
    extract_base_name (extract_base_name "Foo.java") =
      extract_base_name "Foo.java" := by decide

/-! ### Resolver claims -/

/-- A candidate reported by the scanning loop always comes from the list
(or was already in the accumulator). -/
theorem fbmGo_mem (tb : String) (th : ℚ) :
    ∀ (cs : List String) (acc : Option String × ℚ) (m : String),
      (fbmGo tb th cs acc).1 = some m → acc.1 = some m ∨ m ∈ cs := by
  intro cs
  induction cs with
  | nil =>
    intro acc m h
    left
    exact h
  | cons c rest ih =>
    intro acc m h
    rw [fbmGo] at h
    simp only [] at h
    split at h
    · right
      simp at h
      simp [h]
    · split at h
      · rcases ih _ m h with h' | h'
        · right
          simp at h'
          simp [h']
        · right
          exact List.mem_cons_of_mem _ h'
      · rcases ih _ m h with h' | h'
        · left
          exact h'
        · right
          exact List.mem_cons_of_mem _ h'

/-- **C1.** Classification order for one merge-side file: a conflict
pattern wins outright (score 0, issue `conflict_file`, no matching
attempted); else verbatim membership in the candidate expected list gives
an exact match (score 1, no issues); else `best_match` runs at threshold
0.6 and a found match gives a fuzzy match carrying its score with issue
`name_mismatch` exactly when the score is below 0.9, while no match gives
`no_match` (score 0, issue `missing_correspondence`).  Candidate lists
produced by the scanner contain no empty names, which rules out Python's
falsy-string corner in `if best_match:`. -/
theorem claim_C1_classification (mergePath : String) (expectedList : List String)
    (f : String) (hE : ∀ c ∈ expectedList, c ≠ "") :
    (is_conflict_file f = true →
      classifyMergeFile mergePath expectedList f =
        ⟨"conflict_file", scenarioOf mergePath f, some f, none, 0, ["conflict_file"]⟩) ∧
    (is_conflict_file f = false → f ∈ expectedList →
      classifyMergeFile mergePath expectedList f =
        ⟨"exact_match", scenarioOf mergePath f, some f, some f, 1, []⟩) ∧
    (∀ m s, is_conflict_file f = false → f ∉ expectedList →
      find_best_match f expectedList ((3 : ℚ)/5) = (some m, s) →
      classifyMergeFile mergePath expectedList f =
        ⟨"fuzzy_match", scenarioOf mergePath f, some f, some m, s,
          if s < (9 : ℚ)/10 then ["name_mismatch"] else []⟩) ∧
    (∀ s, is_conflict_file f = false → f ∉ expectedList →
      find_best_match f expectedList ((3 : ℚ)/5) = (none, s) →
      classifyMergeFile mergePath expectedList f =
        ⟨"no_match", scenarioOf mergePath f, some f, none, 0,
          ["missing_correspondence"]⟩) := by
  refine ⟨?_, ?_, ?_, ?_⟩
  · intro hcf
    rw [classifyMergeFile, if_pos hcf]
  · intro hcf hmem
    rw [classifyMergeFile, if_neg (by simp [hcf]), if_pos hmem]
  · intro m s hcf hmem hbm
    have h1 : (find_best_match f expectedList ((3 : ℚ)/5)).1 = some m := by rw [hbm]
    have hm : m ∈ expectedList := by
      rcases fbmGo_mem (extract_base_name f) ((3 : ℚ)/5) expectedList (none, 0) m h1 with
        h' | h'
      · simp at h'
      · exact h'
    rw [classifyMergeFile, if_neg (by simp [hcf]), if_neg hmem, if_pos (by
      rw [hbm]
      simpa using hE m hm)]
    rw [hbm]
  · intro s hcf hmem hbm
    rw [classifyMergeFile, if_neg (by simp [hcf]), if_neg hmem, if_neg (by
      rw [hbm]
      simp)]

/-- Witness for C1 at a concrete exact match. -/
theorem claim_C1_witness :
    (∀ c ∈ (["A.java"] : List String), c ≠ "") ∧
    classifyMergeFile "" ["A.java"] "A.java" =
      ⟨"exact_match", "A.java", some "A.java", some "A.java", 1, []⟩ :=
  ⟨by decide,
    (claim_C1_classification "" ["A.java"] "A.java" (by decide)).2.1 (by decide) (by decide)⟩

/-- Every record built by the per-file classifier has one of the four
merge-pass kinds, with the scores pinned for conflict, exact and
no-match records. -/
theorem classify_shape (mp : String) (E : List String) (f : String) :
    ((classifyMergeFile mp E f).type = "conflict_file" ∨
      (classifyMergeFile mp E f).type = "exact_match" ∨
      (classifyMergeFile mp E f).type = "fuzzy_match" ∨
      (classifyMergeFile mp E f).type = "no_match") ∧
    ((classifyMergeFile mp E f).type = "conflict_file" →
      (classifyMergeFile mp E f).match_score = 0) ∧
    ((classifyMergeFile mp E f).type = "exact_match" →
      (classifyMergeFile mp E f).match_score = 1) ∧
    ((classifyMergeFile mp E f).type = "no_match" →
      (classifyMergeFile mp E f).match_score = 0) := by
  rw [classifyMergeFile]
  split
  · refine ⟨Or.inl rfl, fun _ => rfl, fun h => ?_, fun h => ?_⟩ <;> simp at h
  · split
    · refine ⟨Or.inr (Or.inl rfl), fun h => ?_, fun _ => rfl, fun h => ?_⟩ <;> simp at h
    · split
      · refine ⟨Or.inr (Or.inr (Or.inl rfl)), fun h => ?_, fun h => ?_, fun h => ?_⟩ <;>
          simp at h
      · refine ⟨Or.inr (Or.inr (Or.inr rfl)), fun h => ?_, fun h => ?_, fun _ => rfl⟩ <;>
          simp at h

/-- Every first-pass correspondence is a classifier output. -/
theorem mem_mergePass (mf ef : List (String × List String)) (c : Corr)
    (hc : c ∈ mergePassCorrs mf ef) :
    ∃ mp E f, c = classifyMergeFile mp E f := by
  rw [mergePassCorrs] at hc
  rcases List.mem_flatMap.mp hc with ⟨p, _, hp2⟩
  rcases List.mem_map.mp hp2 with ⟨f, _, rfl⟩
  exact ⟨p.1, candidateExpected ef p.1, f, rfl⟩

/-- Members of a second-pass fold over one expected path are either old
or freshly emitted `missing_in_merge` records. -/
theorem addMissingPath_mem (ep : String) :
    ∀ (fs : List String) (acc : List Corr) (c : Corr),
      c ∈ fs.foldl (addMissingFile ep) acc →
      c ∈ acc ∨ ∃ f, c = missingCorr ep f := by
  intro fs
  induction fs with
  | nil =>
    intro acc c h
    left
    exact h
  | cons f fs' ih =>
    intro acc c h
    rcases ih (addMissingFile ep acc f) c h with h2 | h2
    · rw [addMissingFile] at h2
      split at h2
      · left
        exact h2
      · rcases List.mem_append.mp h2 with h3 | h3
        · left
          exact h3
        · right
          exact ⟨f, List.mem_singleton.mp h3⟩
    · right
      exact h2

/-- Members of the whole second pass are either first-pass records or
`missing_in_merge` records. -/
theorem missingFold_mem (ef : List (String × List String)) :
    ∀ (acc : List Corr) (c : Corr), c ∈ ef.foldl addMissingPath acc →
      c ∈ acc ∨ ∃ p f, c = missingCorr p f := by
  induction ef with
  | nil =>
    intro acc c h
    left
    exact h
  | cons p rest ih =>
    intro acc c h
    rw [List.foldl_cons] at h
    rcases ih (addMissingPath acc p) c h with h' | h'
    · rcases addMissingPath_mem p.1 p.2 acc c h' with h2 | h2
      · left
        exact h2
      · right
        obtain ⟨f, hf⟩ := h2
        exact ⟨p.1, f, hf⟩
    · right
      exact h'

/-- **C5.** Every correspondence produced by the resolver carries exactly
one of the five kinds, conflict and missing records carry score 0, and
exact records carry score 1. -/
theorem claim_C5_invariants (mf ef : List (String × List String)) (c : Corr)
    (hc : c ∈ (find_corresponding_files mf ef).1) :
    (c.type = "exact_match" ∨ c.type = "fuzzy_match" ∨ c.type = "conflict_file" ∨
      c.type = "no_match" ∨ c.type = "missing_in_merge") ∧
    ((c.type = "conflict_file" ∨ c.type = "missing_in_merge") → c.match_score = 0) ∧
    (c.type = "exact_match" → c.match_score = 1) := by
  have hc' : c ∈ ef.foldl addMissingPath (mergePassCorrs mf ef) := hc
  rcases missingFold_mem ef (mergePassCorrs mf ef) c hc' with h | ⟨p, f, rfl⟩
  · obtain ⟨mp, E, f, rfl⟩ := mem_mergePass mf ef c h
    obtain ⟨hk, h0, h1, hn⟩ := classify_shape mp E f
    refine ⟨?_, ?_, h1⟩
    · rcases hk with h | h | h | h
      · exact Or.inr (Or.inr (Or.inl h))
      · exact Or.inl h
      · exact Or.inr (Or.inl h)
      · exact Or.inr (Or.inr (Or.inr (Or.inl h)))
    · intro hor
      rcases hor with h | h
      · exact h0 h
      · rcases hk with h' | h' | h' | h' <;> rw [h'] at h <;> exact absurd h (by decide)
  · refine ⟨Or.inr (Or.inr (Or.inr (Or.inr rfl))), fun _ => rfl, fun h => ?_⟩
    simp [missingCorr] at h

/-- Witness for C5 at a one-file exact correspondence. -/
theorem claim_C5_witness :
    (⟨"exact_match", "A.java", some "A.java", some "A.java", 1, []⟩ : Corr) ∈
      (find_corresponding_files [("", ["A.java"])] [("", ["A.java"])]).1 ∧
    (⟨"exact_match", "A.java", some "A.java", some "A.java", 1, []⟩ : Corr).match_score
      = 1 :=
  ⟨by decide,
    (claim_C5_invariants [("", ["A.java"])] [("", ["A.java"])]
      ⟨"exact_match", "A.java", some "A.java", some "A.java", 1, []⟩ (by decide)).2.2 rfl⟩

/-- One expected path of the second pass, related to its specification
form: the fold appends exactly the entries the spec emits. -/
theorem addMissingPath_spec (ep : String) :
    ∀ (fs : List String) (acc : List Corr),
      fs.foldl (addMissingFile ep) acc = acc ++ missingSpecFiles ep fs acc := by
  intro fs
  induction fs with
  | nil =>
    intro acc
    simp [missingSpecFiles]
  | cons f fs' ih =>
    intro acc
    rw [List.foldl_cons, missingSpecFiles, addMissingFile]
    split
    · exact ih acc
    · rw [ih (acc ++ [missingCorr ep f]), List.append_assoc]
      rfl

/-- The whole second pass appends exactly the spec's emissions. -/
theorem missingFold_spec (ef : List (String × List String)) :
    ∀ acc, ef.foldl addMissingPath acc = acc ++ missingSpec ef acc := by
  induction ef with
  | nil =>
    intro acc
    simp [missingSpec]
  | cons p rest ih =>
    intro acc
    rw [List.foldl_cons, missingSpec,
      show addMissingPath acc p = acc ++ missingSpecFiles p.1 p.2 acc from
        addMissingPath_spec p.1 p.2 acc,
      ih (acc ++ missingSpecFiles p.1 p.2 acc), List.append_assoc]

theorem missingSpecFiles_mem (ep : String) :
    ∀ (fs : List String) (rcd : List Corr) (c : Corr),
      c ∈ missingSpecFiles ep fs rcd → ∃ f, c = missingCorr ep f := by
  intro fs
  induction fs with
  | nil =>
    intro rcd c h
    simp [missingSpecFiles] at h
  | cons f fs' ih =>
    intro rcd c h
    rw [missingSpecFiles] at h
    split at h
    · exact ih _ c h
    · rcases List.mem_cons.mp h with rfl | h'
      · exact ⟨f, rfl⟩
      · exact ih _ c h'

theorem missingSpec_mem (ef : List (String × List String)) :
    ∀ (rcd : List Corr) (c : Corr), c ∈ missingSpec ef rcd →
      ∃ p f, c = missingCorr p f := by
  induction ef with
  | nil =>
    intro rcd c h
    simp [missingSpec] at h
  | cons p rest ih =>
    intro rcd c h
    rw [missingSpec] at h
    rcases List.mem_append.mp h with h' | h'
    · obtain ⟨f, hf⟩ := missingSpecFiles_mem p.1 p.2 rcd c h'
      exact ⟨p.1, f, hf⟩
    · exact ih _ c h'

/-- **C4.** After the merge pass, the resolver emits one
`missing_in_merge` correspondence (score 0, issue `missing_in_merge`) for
exactly those expected files not already recorded — at the moment they
are considered, earlier emissions of this same pass included — as the
`expected_file` of a correspondence whose scenario key starts with the
file's relative path; the check is an exact string-prefix test with no
fuzzy path fallback (`missingSpec` is that second pass written from the
claim's words, and the resolver's output is the merge pass followed by
exactly its emissions). -/
theorem claim_C4_missing_pass (mf ef : List (String × List String)) :
    (find_corresponding_files mf ef).1 =
      mergePassCorrs mf ef ++ missingSpec ef (mergePassCorrs mf ef) ∧
    ∀ c ∈ missingSpec ef (mergePassCorrs mf ef),
      c.type = "missing_in_merge" ∧ c.match_score = 0 ∧
      c.quality_issues = ["missing_in_merge"] ∧ c.merge_file = none := by
  constructor
  · exact missingFold_spec ef (mergePassCorrs mf ef)
  · intro c hc
    obtain ⟨p, f, rfl⟩ := missingSpec_mem ef (mergePassCorrs mf ef) c hc
    exact ⟨rfl, rfl, rfl, rfl⟩

/-- Witness for C4 on a one-file expected index with an empty merge side. -/
theorem claim_C4_witness :
    (find_corresponding_files [] [("", ["B.java"])]).1 =
      mergePassCorrs [] [("", ["B.java"])] ++
        missingSpec [("", ["B.java"])] (mergePassCorrs [] [("", ["B.java"])]) ∧
    missingCorr "" "B.java" ∈
      missingSpec [("", ["B.java"])] (mergePassCorrs [] [("", ["B.java"])]) ∧
    (missingCorr "" "B.java").match_score = 0 :=
  ⟨(claim_C4_missing_pass [] [("", ["B.java"])]).1, by decide,
    ((claim_C4_missing_pass [] [("", ["B.java"])]).2
      (missingCorr "" "B.java") (by decide)).2.1⟩

/-! ### Scanner claims -/

/-- Deleting unreadable subdirectories does not change the walk: `os.walk`
skips them anyway. -/
theorem osWalkRel_prune (t : FSTree) :
    ∀ rel, osWalkRel (pruneTree t) rel = osWalkRel t rel := by
  refine @FSTree.rec
    (fun t => ∀ rel, osWalkRel (pruneTree t) rel = osWalkRel t rel)
    (fun s => ∀ rel, osWalkForest (pruneForest s) rel = osWalkForest s rel)
    ?_ ?_ ?_ t
  · intro r files subs ih rel
    rw [show pruneTree (.node r files subs) = .node r files (pruneForest subs) from by
      rw [pruneTree]]
    rw [osWalkRel, osWalkRel, ih rel]
  · intro rel
    rw [show pruneForest .nil = .nil from by rw [pruneForest]]
  · intro name t' rest iht ihrest rel
    rw [show pruneForest (.cons name t' rest) =
        if treeReadable t' then .cons name (pruneTree t') (pruneForest rest)
        else pruneForest rest from by rw [pruneForest]]
    by_cases hr : treeReadable t'
    · rw [if_pos hr, osWalkForest, osWalkForest, iht, ihrest]
    · rw [if_neg hr, ihrest, osWalkForest]
      have ht' : osWalkRel t' (joinRel rel name) = [] := by
        cases t' with
        | node rr ff ss =>
          have hrr : rr = false := by simpa [treeReadable] using hr
          rw [osWalkRel, hrr]
          simp
      rw [ht']
      simp

/-- **C6 counterexample.** A readable root with an unreadable `locked`
subdirectory holding the qualifying file `A.java`: the scan neither fails
nor lists the file — `os.walk`'s default error handling silently skips
the unreadable directory and a partial index is returned (the same tree
with `locked` readable produces the entry). -/
theorem claim_C6_counterexample :
    hasUnreadable (.node true []
      (.cons "locked" (.node false ["A.java"] .nil) .nil)) = true ∧
    scan_directory defaultExtensions
      (.node true [] (.cons "locked" (.node false ["A.java"] .nil) .nil)) = [] ∧
    scan_directory defaultExtensions
      (.node true [] (.cons "locked" (.node true ["A.java"] .nil) .nil)) =
      [("locked", ["A.java"])] := by
  refine ⟨?_, ?_, ?_⟩
  · rw [hasUnreadable, hasUnreadableF, hasUnreadable]
    simp
  · rw [scan_directory, osWalkRel, osWalkForest, osWalkRel]
    simp [osWalkForest]
  · rw [scan_directory, osWalkRel, osWalkForest, osWalkRel]
    simp only [osWalkForest, if_pos, joinRel]
    decide

/-- **C6 (amended).** An unreadable directory does not fail the scan and
is not reported: scanning equals scanning with every unreadable
subdirectory deleted, an unreadable root yields the empty index, and —
unchanged from the claim — a directory with no qualifying files is simply
absent: every returned entry has a nonempty file list. -/
theorem claim_C6_amended_scan (exts : List String) (t : FSTree) :
    scan_directory exts (pruneTree t) = scan_directory exts t ∧
    (treeReadable t = false → scan_directory exts t = []) ∧
    ∀ p ∈ scan_directory exts t, p.2 ≠ [] := by
  refine ⟨?_, ?_, ?_⟩
  · rw [scan_directory, scan_directory, osWalkRel_prune]
  · intro hr
    cases t with
    | node r files subs =>
      have hrf : r = false := by simpa [treeReadable] using hr
      rw [scan_directory, osWalkRel, hrf]
      simp
  · intro p hp
    rw [scan_directory] at hp
    rcases List.mem_filterMap.mp hp with ⟨q, _, hq⟩
    simp only [] at hq
    split at hq
    · exact absurd hq (by simp)
    · rename_i hvalid
      have : p.2 = q.2.filter
          (fun f => exts.any (fun e => strEndsWith f.data e.data) && !(is_temp_file f)) := by
        have := congrArg Prod.snd (Option.some.inj hq)
        simp at this
        rw [← this]
      rw [this]
      exact hvalid

/-- Witness for C6 (amended) at an unreadable root. -/
theorem claim_C6_witness :
    treeReadable (FSTree.node false ["A.java"] .nil) = false ∧
    scan_directory defaultExtensions (.node false ["A.java"] .nil) = [] :=
  ⟨rfl, (claim_C6_amended_scan defaultExtensions
    (.node false ["A.java"] .nil)).2.1 rfl⟩

end MergeComp
